import Mathlib

/-!
Verification of the one-billion-rows batch-aggregation pipeline
(src/calculate/src/calculate.rs).

Modelling conventions:
- A raw line is a list of bytes; a byte is modelled as a Nat (bytes are only
  ever compared for equality and order, never arithmetically).
- The numeric value type f64 is modelled by the rationals: arithmetic is
  exact and min and max are those of the linear order. The IEEE-754
  artefacts (rounding of sums, NaN, infinities) are idealized away.
- BTreeMap with Vec of bytes as key is modelled as an association list
  sorted strictly by the lexicographic byte order, together with a
  well-formedness predicate Sorted. All maps the program builds are sorted.
- The standard-library collaborators from_utf8 and str::parse, which live
  outside this repository, are abstract parameters: any function from bytes
  to an optional string, and from a string to an optional rational.
- merge_maps runs a while loop halving the list each round; it is modelled
  with a fuel argument, the fuel being the initial list length, which is
  proved sufficient.
-/

/-- The per-key statistics accumulator of calculate.rs (struct TempStats). -/
structure TempStats where
  min : Rat
  max : Rat
  sum : Rat
  count : Nat
deriving DecidableEq, Repr

namespace TempStats

/-- TempStats::new. -/
def new (temp : Rat) : TempStats :=
  { min := temp, max := temp, sum := temp, count := 1 }

/-- TempStats::update. -/
def update (s : TempStats) (temp : Rat) : TempStats :=
  { min := Min.min s.min temp
    max := Max.max s.max temp
    sum := s.sum + temp
    count := s.count + 1 }

/-- TempStats::mean. -/
def mean (s : TempStats) : Rat :=
  s.sum / (s.count : Rat)

end TempStats

/-- The accumulator combination performed inside the and_modify closure of
merge_maps. -/
def mergeStats (s t : TempStats) : TempStats :=
  { min := Min.min s.min t.min
    max := Max.max s.max t.max
    sum := s.sum + t.sum
    count := s.count + t.count }

/-- Strict lexicographic order on byte sequences: the Ord instance of a
Rust vector of bytes, which orders BTreeMap keys. -/
def keyLt : List Nat → List Nat → Bool
  | _, [] => false
  | [], _ :: _ => true
  | a :: as, b :: bs => if a < b then true else if a = b then keyLt as bs else false

theorem keyLt_irrefl : ∀ k : List Nat, keyLt k k = false := by
  intro k
  induction k with
  | nil => rfl
  | cons a as ih => simp [keyLt, ih]

theorem keyLt_trans : ∀ a b c : List Nat,
    keyLt a b = true → keyLt b c = true → keyLt a c = true := by
  intro a
  induction a with
  | nil =>
    intro b c hab hbc
    cases c with
    | nil => cases b <;> simp [keyLt] at hab hbc
    | cons x xs => rfl
  | cons x xs ih =>
    intro b c hab hbc
    cases b with
    | nil => simp [keyLt] at hab
    | cons y ys =>
      cases c with
      | nil => simp [keyLt] at hbc
      | cons z zs =>
        simp only [keyLt] at hab hbc ⊢
        by_cases hxy : x < y
        · by_cases hyz : y < z
          · have : x < z := Nat.lt_trans hxy hyz
            simp [this]
          · simp [hyz] at hbc
            rcases hbc with ⟨hyz2, _⟩
            subst hyz2
            simp [hxy]
        · simp [hxy] at hab
          rcases hab with ⟨hxy2, htail⟩
          subst hxy2
          by_cases hyz : x < z
          · simp [hyz]
          · simp [hyz] at hbc
            rcases hbc with ⟨hyz2, htail2⟩
            subst hyz2
            simp [hyz, ih ys zs htail htail2]

theorem keyLt_conn : ∀ a b : List Nat,
    keyLt a b = false → keyLt b a = false → a = b := by
  intro a
  induction a with
  | nil =>
    intro b hab _
    cases b with
    | nil => rfl
    | cons y ys => simp [keyLt] at hab
  | cons x xs ih =>
    intro b hab hba
    cases b with
    | nil => simp [keyLt] at hba
    | cons y ys =>
      simp only [keyLt] at hab hba
      by_cases hxy : x < y
      · simp [hxy] at hab
      · by_cases hyx : y < x
        · simp [hyx] at hba
        · have hxy2 : x = y := Nat.le_antisymm (Nat.le_of_not_lt hyx) (Nat.le_of_not_lt hxy)
          subst hxy2
          simp [hxy] at hab hba
          simp [ih ys hab hba]

theorem keyLt_ne {a b : List Nat} (h : keyLt a b = true) : a ≠ b := by
  intro he
  subst he
  simp [keyLt_irrefl] at h

theorem keyLt_asymm {a b : List Nat} (h : keyLt a b = true) : keyLt b a = false := by
  by_contra hba
  have hba2 : keyLt b a = true := by
    cases hb : keyLt b a with
    | false => exact absurd hb hba
    | true => rfl
  have := keyLt_trans a b a h hba2
  simp [keyLt_irrefl] at this

/-- A partial or final mapping: BTreeMap from byte-sequence key to TempStats,
modelled as an association list sorted strictly by keyLt. -/
abbrev CityMap := List (List Nat × TempStats)

/-- Well-formedness of a CityMap: keys strictly increasing, as a BTreeMap
iterates them. -/
def Sorted (m : CityMap) : Prop :=
  m.Pairwise (fun x y => keyLt x.1 y.1 = true)

namespace CityMap

/-- BTreeMap lookup. -/
def find : CityMap → List Nat → Option TempStats
  | [], _ => none
  | (k₁, v₁) :: rest, k => if k = k₁ then some v₁ else find rest k

/-- The BTreeMap entry-and-modify-or-insert idiom: if the key is present
apply f to its value, otherwise insert the fresh value at its place. -/
def upsert (k : List Nat) (fresh : TempStats) (f : TempStats → TempStats) :
    CityMap → CityMap
  | [] => [(k, fresh)]
  | (k₁, v₁) :: rest =>
    if keyLt k k₁ then (k, fresh) :: (k₁, v₁) :: rest
    else if k = k₁ then (k₁, f v₁) :: rest
    else (k₁, v₁) :: upsert k fresh f rest

end CityMap

theorem find_eq_none_of_not_mem (m : CityMap) (k : List Nat)
    (h : ∀ q ∈ m, k ≠ q.1) : CityMap.find m k = none := by
  induction m with
  | nil => rfl
  | cons q rest ih =>
    obtain ⟨k₁, v₁⟩ := q
    have hk : k ≠ k₁ := h (k₁, v₁) (List.mem_cons_self _ _)
    simp only [CityMap.find, if_neg hk]
    exact ih (fun q hq => h q (List.mem_cons_of_mem _ hq))

theorem sorted_cons_iff {q : List Nat × TempStats} {rest : CityMap} :
    Sorted (q :: rest) ↔ (∀ r ∈ rest, keyLt q.1 r.1 = true) ∧ Sorted rest := by
  unfold Sorted
  exact List.pairwise_cons

theorem find_head_lt {q : List Nat × TempStats} {rest : CityMap}
    (hs : Sorted (q :: rest)) {k : List Nat} (hlt : keyLt k q.1 = true) :
    CityMap.find (q :: rest) k = none := by
  obtain ⟨k₁, v₁⟩ := q
  have hne : k ≠ k₁ := by
    intro he; subst he; exact absurd hlt (by simp [keyLt_irrefl])
  simp only [CityMap.find, if_neg hne]
  refine find_eq_none_of_not_mem rest k (fun r hr => ?_)
  have h₁ : keyLt k₁ r.1 = true := (sorted_cons_iff.mp hs).1 r hr
  exact keyLt_ne (keyLt_trans _ _ _ hlt h₁)

theorem mem_upsert_key {k : List Nat} {fresh : TempStats} {f : TempStats → TempStats} :
    ∀ (m : CityMap) (q : List Nat × TempStats),
      q ∈ CityMap.upsert k fresh f m → q.1 = k ∨ q.1 ∈ m.map Prod.fst := by
  intro m
  induction m with
  | nil =>
    intro q hq
    simp only [CityMap.upsert, List.mem_singleton] at hq
    subst hq
    exact Or.inl rfl
  | cons p rest ih =>
    intro q hq
    obtain ⟨k₁, v₁⟩ := p
    simp only [CityMap.upsert] at hq
    by_cases h₁ : keyLt k k₁ = true
    · rw [if_pos h₁, List.mem_cons, List.mem_cons] at hq
      rcases hq with hq | hq | hq
      · subst hq; exact Or.inl rfl
      · subst hq; right; simp
      · right
        simp only [List.map_cons, List.mem_cons]
        exact Or.inr (List.mem_map_of_mem Prod.fst hq)
    · rw [if_neg h₁] at hq
      by_cases h₂ : k = k₁
      · rw [if_pos h₂, List.mem_cons] at hq
        rcases hq with hq | hq
        · subst hq; right; simp
        · right
          simp only [List.map_cons, List.mem_cons]
          exact Or.inr (List.mem_map_of_mem Prod.fst hq)
      · rw [if_neg h₂, List.mem_cons] at hq
        rcases hq with hq | hq
        · subst hq; right; simp
        · rcases ih q hq with h | h
          · exact Or.inl h
          · right
            simp only [List.map_cons, List.mem_cons]
            exact Or.inr h

theorem keyLt_of_ne_of_not_lt {a b : List Nat}
    (h₁ : keyLt a b ≠ true) (h₂ : a ≠ b) : keyLt b a = true := by
  have ha : keyLt a b = false := by
    cases hx : keyLt a b with
    | false => rfl
    | true => exact absurd hx h₁
  cases hx : keyLt b a with
  | true => rfl
  | false => exact absurd (keyLt_conn a b ha hx) h₂

theorem upsert_sorted {k : List Nat} {fresh : TempStats} {f : TempStats → TempStats} :
    ∀ {m : CityMap}, Sorted m → Sorted (CityMap.upsert k fresh f m) := by
  intro m
  induction m with
  | nil =>
    intro _
    simp [CityMap.upsert, Sorted]
  | cons p rest ih =>
    intro hs
    obtain ⟨k₁, v₁⟩ := p
    have hrest : Sorted rest := (sorted_cons_iff.mp hs).2
    have hhead : ∀ r ∈ rest, keyLt k₁ r.1 = true := (sorted_cons_iff.mp hs).1
    simp only [CityMap.upsert]
    by_cases h₁ : keyLt k k₁ = true
    · rw [if_pos h₁]
      refine sorted_cons_iff.mpr ⟨?_, hs⟩
      intro r hr
      rcases List.mem_cons.mp hr with hr | hr
      · subst hr; exact h₁
      · exact keyLt_trans _ _ _ h₁ (hhead r hr)
    · rw [if_neg h₁]
      by_cases h₂ : k = k₁
      · rw [if_pos h₂]
        exact sorted_cons_iff.mpr ⟨hhead, hrest⟩
      · rw [if_neg h₂]
        refine sorted_cons_iff.mpr ⟨?_, ih hrest⟩
        intro r hr
        rcases mem_upsert_key rest r hr with h | h
        · rw [h]
          exact keyLt_of_ne_of_not_lt h₁ h₂
        · obtain ⟨q, hq, hq1⟩ := List.mem_map.mp h
          rw [← hq1]
          exact hhead q hq

theorem find_upsert {k : List Nat} {fresh : TempStats} {f : TempStats → TempStats} :
    ∀ {m : CityMap}, Sorted m → ∀ (j : List Nat),
      CityMap.find (CityMap.upsert k fresh f m) j =
        if j = k then some ((CityMap.find m k).elim fresh f) else CityMap.find m j := by
  intro m
  induction m with
  | nil =>
    intro _ j
    by_cases h : j = k <;> simp [CityMap.upsert, CityMap.find, h]
  | cons p rest ih =>
    intro hs j
    obtain ⟨k₁, v₁⟩ := p
    have hrest : Sorted rest := (sorted_cons_iff.mp hs).2
    simp only [CityMap.upsert]
    by_cases h₁ : keyLt k k₁ = true
    · rw [if_pos h₁]
      have hfk : CityMap.find ((k₁, v₁) :: rest) k = none := find_head_lt hs h₁
      by_cases hj : j = k
      · subst hj
        rw [hfk]
        simp [CityMap.find]
      · simp only [CityMap.find, if_neg hj]
    · rw [if_neg h₁]
      by_cases h₂ : k = k₁
      · subst h₂
        by_cases hj : j = k
        · subst hj
          simp [CityMap.find]
        · simp only [CityMap.find, if_neg hj]
      · rw [if_neg h₂]
        by_cases hj : j = k₁
        · subst hj
          have hjk : ¬ j = k := fun he => h₂ he.symm
          simp [CityMap.find, hjk, h₂]
        · simp only [CityMap.find, if_neg hj, if_neg h₂]
          exact ih hrest j

theorem find_tail_self {k₁ : List Nat} {v₁ : TempStats} {rest : CityMap}
    (hs : Sorted ((k₁, v₁) :: rest)) : CityMap.find rest k₁ = none := by
  refine find_eq_none_of_not_mem rest k₁ (fun r hr => ?_)
  exact keyLt_ne ((sorted_cons_iff.mp hs).1 r hr)

/-- Two sorted maps that agree on every lookup are equal: the canonical-form
property of sorted association lists. -/
theorem find_ext : ∀ (m m₂ : CityMap), Sorted m → Sorted m₂ →
    (∀ k, CityMap.find m k = CityMap.find m₂ k) → m = m₂ := by
  intro m
  induction m with
  | nil =>
    intro m₂ _ _ h
    cases m₂ with
    | nil => rfl
    | cons q t =>
      obtain ⟨k₂, v₂⟩ := q
      have := h k₂
      simp [CityMap.find] at this
  | cons p t₁ ih =>
    intro m₂ hs₁ hs₂ h
    obtain ⟨k₁, v₁⟩ := p
    cases m₂ with
    | nil =>
      have := h k₁
      simp [CityMap.find] at this
    | cons q t₂ =>
      obtain ⟨k₂, v₂⟩ := q
      have hkeys : k₁ = k₂ := by
        by_cases h₁₂ : keyLt k₁ k₂ = true
        · exfalso
          have := h k₁
          rw [find_head_lt hs₂ h₁₂] at this
          simp [CityMap.find] at this
        · by_cases h₂₁ : keyLt k₂ k₁ = true
          · exfalso
            have := h k₂
            rw [find_head_lt hs₁ h₂₁] at this
            simp [CityMap.find] at this
          · exact keyLt_conn k₁ k₂ (Bool.not_eq_true _ ▸ Bool.of_not_eq_true h₁₂)
              (Bool.of_not_eq_true h₂₁)
      subst hkeys
      have hvals : v₁ = v₂ := by
        have := h k₁
        simpa [CityMap.find] using this
      subst hvals
      have htails : t₁ = t₂ := by
        refine ih t₂ (sorted_cons_iff.mp hs₁).2 (sorted_cons_iff.mp hs₂).2 (fun k => ?_)
        by_cases hk : k = k₁
        · subst hk
          rw [find_tail_self hs₁, find_tail_self hs₂]
        · have := h k
          simpa [CityMap.find, if_neg hk] using this
      rw [htails]

/-- Per-key combination of optional accumulators: the effect of merging on a
single lookup. -/
def optMerge : Option TempStats → Option TempStats → Option TempStats
  | none, b => b
  | some a, none => some a
  | some a, some b => some (mergeStats a b)

theorem mergeStats_comm (a b : TempStats) : mergeStats a b = mergeStats b a := by
  simp [mergeStats, min_comm, max_comm, add_comm]

theorem mergeStats_assoc (a b c : TempStats) :
    mergeStats (mergeStats a b) c = mergeStats a (mergeStats b c) := by
  simp [mergeStats, min_assoc, max_assoc, add_assoc]

theorem optMerge_none_right (a : Option TempStats) : optMerge a none = a := by
  cases a <;> rfl

theorem optMerge_comm (a b : Option TempStats) : optMerge a b = optMerge b a := by
  cases a <;> cases b <;> simp [optMerge, mergeStats_comm]

theorem optMerge_assoc (a b c : Option TempStats) :
    optMerge (optMerge a b) c = optMerge a (optMerge b c) := by
  cases a <;> cases b <;> cases c <;> simp [optMerge, mergeStats_assoc]

/-- The body of the merge worker thread in merge_maps: fold the entries of
the right map into the left one, merging accumulators on shared keys and
inserting the incoming accumulator on fresh keys. -/
def mergeInto (left : CityMap) (right : CityMap) : CityMap :=
  right.foldl (fun acc q => CityMap.upsert q.1 q.2 (fun s => mergeStats s q.2) acc) left

theorem mergeInto_sorted : ∀ (right left : CityMap), Sorted left →
    Sorted (mergeInto left right) := by
  intro right
  induction right with
  | nil => intro left hs; exact hs
  | cons q rest ih =>
    intro left hs
    exact ih _ (upsert_sorted hs)

theorem find_mergeInto : ∀ (right left : CityMap), Sorted left → Sorted right →
    ∀ k, CityMap.find (mergeInto left right) k =
      optMerge (CityMap.find left k) (CityMap.find right k) := by
  intro right
  induction right with
  | nil =>
    intro left _ _ k
    show CityMap.find left k = optMerge (CityMap.find left k) none
    rw [optMerge_none_right]
  | cons q rest ih =>
    intro left hl hr k
    obtain ⟨k₀, v₀⟩ := q
    have hrest : Sorted rest := (sorted_cons_iff.mp hr).2
    have step : mergeInto left ((k₀, v₀) :: rest) =
        mergeInto (CityMap.upsert k₀ v₀ (fun s => mergeStats s v₀) left) rest := rfl
    rw [step, ih _ (upsert_sorted hl) hrest k, find_upsert hl k]
    by_cases hk : k = k₀
    · subst hk
      rw [if_pos rfl, find_tail_self hr]
      rw [optMerge_none_right]
      simp only [CityMap.find, if_pos rfl]
      cases hfl : CityMap.find left k <;> simp [optMerge, Option.elim]
    · rw [if_neg hk]
      simp only [CityMap.find, if_neg hk]

/-- Per-line parsing of process_lines: find the first semicolon byte (ASCII
59), split the line there, decode the bytes after the semicolon with the
abstract UTF-8 decoder u, and parse the decoded text with the abstract
float parser p. Returns the key bytes before the semicolon and the value,
or none when the line is malformed. -/
def lineParse (u : List Nat → Option String) (p : String → Option Rat)
    (line : List Nat) : Option (List Nat × Rat) :=
  match line.findIdx? (fun b => b == 59) with
  | none => none
  | some pos =>
    match u ((line.drop pos).drop 1) with
    | none => none
    | some s =>
      match p s with
      | none => none
      | some temp => some (line.take pos, temp)

/-- The body of the for loop in process_lines: fold one raw line into the
map, skipping malformed lines. -/
def lineStep (u : List Nat → Option String) (p : String → Option Rat)
    (m : CityMap) (line : List Nat) : CityMap :=
  match lineParse u p line with
  | none => m
  | some ct => CityMap.upsert ct.1 (TempStats.new ct.2) (fun s => s.update ct.2) m

/-- process_lines of calculate.rs: aggregate a batch of raw lines into a
fresh mapping. -/
def process_lines (u : List Nat → Option String) (p : String → Option Rat)
    (lines : List (List Nat)) : CityMap :=
  lines.foldl (lineStep u p) []

theorem lineStep_sorted {u : List Nat → Option String} {p : String → Option Rat}
    {m : CityMap} (hs : Sorted m) (line : List Nat) : Sorted (lineStep u p m line) := by
  unfold lineStep
  cases lineParse u p line with
  | none => exact hs
  | some ct => exact upsert_sorted hs

theorem foldl_lineStep_sorted {u : List Nat → Option String} {p : String → Option Rat} :
    ∀ (lines : List (List Nat)) (m : CityMap), Sorted m →
      Sorted (lines.foldl (lineStep u p) m) := by
  intro lines
  induction lines with
  | nil => intro m hs; exact hs
  | cons ln ls ih => intro m hs; exact ih _ (lineStep_sorted hs ln)

theorem process_lines_sorted (u : List Nat → Option String) (p : String → Option Rat)
    (lines : List (List Nat)) : Sorted (process_lines u p lines) :=
  foldl_lineStep_sorted lines [] List.Pairwise.nil

theorem update_eq_mergeStats_new (s : TempStats) (t : Rat) :
    s.update t = mergeStats s (TempStats.new t) := rfl

theorem find_lineStep {u : List Nat → Option String} {p : String → Option Rat}
    {m : CityMap} (hs : Sorted m) (line : List Nat) (k : List Nat) :
    CityMap.find (lineStep u p m line) k =
      optMerge (CityMap.find m k) (CityMap.find (lineStep u p [] line) k) := by
  rcases hp : lineParse u p line with _ | ⟨c, t⟩
  · simp only [lineStep, hp]
    rw [show CityMap.find [] k = none from rfl, optMerge_none_right]
  · simp only [lineStep, hp]
    rw [find_upsert hs k]
    have hone : CityMap.upsert c (TempStats.new t) (fun s => s.update t) [] =
        [(c, TempStats.new t)] := rfl
    rw [hone]
    by_cases hk : k = c
    · subst hk
      rw [if_pos rfl]
      simp only [CityMap.find, if_pos rfl]
      cases hf : CityMap.find m k with
      | none => rfl
      | some s =>
        simp [optMerge, update_eq_mergeStats_new]
    · rw [if_neg hk]
      simp only [CityMap.find, if_neg hk]
      rw [optMerge_none_right]

theorem find_foldl_lineStep {u : List Nat → Option String} {p : String → Option Rat} :
    ∀ (lines : List (List Nat)) (m : CityMap), Sorted m → ∀ k,
      CityMap.find (lines.foldl (lineStep u p) m) k =
        optMerge (CityMap.find m k) (CityMap.find (process_lines u p lines) k) := by
  intro lines
  induction lines with
  | nil =>
    intro m _ k
    show CityMap.find m k = optMerge (CityMap.find m k) (CityMap.find [] k)
    rw [show CityMap.find [] k = none from rfl, optMerge_none_right]
  | cons ln ls ih =>
    intro m hs k
    have h₁ : (ln :: ls).foldl (lineStep u p) m = ls.foldl (lineStep u p) (lineStep u p m ln) :=
      rfl
    have h₂ : process_lines u p (ln :: ls) = ls.foldl (lineStep u p) (lineStep u p [] ln) :=
      rfl
    rw [h₁, h₂, ih _ (lineStep_sorted hs ln) k,
      ih _ (lineStep_sorted List.Pairwise.nil ln) k,
      find_lineStep hs ln k, optMerge_assoc]

theorem find_process_append (u : List Nat → Option String) (p : String → Option Rat)
    (l₁ l₂ : List (List Nat)) (k : List Nat) :
    CityMap.find (process_lines u p (l₁ ++ l₂)) k =
      optMerge (CityMap.find (process_lines u p l₁) k)
        (CityMap.find (process_lines u p l₂) k) := by
  show CityMap.find ((l₁ ++ l₂).foldl (lineStep u p) []) k = _
  rw [List.foldl_append]
  exact find_foldl_lineStep l₂ _ (process_lines_sorted u p l₁) k

/-- The accumulators reachable through the three constructors of the
statistics algebra: creation on first observation, in-place update, and
the merge performed in merge_maps. -/
inductive Reachable : TempStats → Prop where
  | new : ∀ t : Rat, Reachable (TempStats.new t)
  | update : ∀ (s : TempStats) (t : Rat), Reachable s → Reachable (s.update t)
  | merge : ∀ a b : TempStats, Reachable a → Reachable b → Reachable (mergeStats a b)

theorem reachable_bounds : ∀ {s : TempStats}, Reachable s → s.min ≤ s.max ∧ 1 ≤ s.count := by
  intro s h
  induction h with
  | new t => exact ⟨le_refl t, le_refl 1⟩
  | update s t _ ih =>
    refine ⟨?_, ?_⟩
    · exact le_trans (min_le_left s.min t) (le_trans ih.1 (le_max_left s.max t))
    · show 1 ≤ s.count + 1
      omega
  | merge a b _ _ iha ihb =>
    refine ⟨?_, ?_⟩
    · exact le_trans (min_le_left a.min b.min) (le_trans iha.1 (le_max_left a.max b.max))
    · show 1 ≤ a.count + b.count
      have := iha.2
      omega

/-- C2: the accumulator merge operation performed inside merge_maps
(componentwise min, max, sum and count) is commutative and associative. -/
theorem claim_C2_merge_comm_assoc (a b c : TempStats) :
    mergeStats a b = mergeStats b a ∧
    mergeStats (mergeStats a b) c = mergeStats a (mergeStats b c) :=
  ⟨mergeStats_comm a b, mergeStats_assoc a b c⟩

/-- C5: new yields min = max = sum = value and count = 1; update takes the
min and max with the incoming value, adds it to the sum and increments the
count; both are total. -/
theorem claim_C5_new_update (v : Rat) (s : TempStats) :
    TempStats.new v = { min := v, max := v, sum := v, count := 1 } ∧
    s.update v = { min := Min.min s.min v, max := Max.max s.max v,
                   sum := s.sum + v, count := s.count + 1 } :=
  ⟨rfl, rfl⟩

/-- C6: every accumulator reachable through new, update and merge satisfies
min ≤ max and count ≥ 1. -/
theorem claim_C6_invariant (s : TempStats) (h : Reachable s) :
    s.min ≤ s.max ∧ 1 ≤ s.count :=
  reachable_bounds h

theorem claim_C6_witness :
    (TempStats.new 0).min ≤ (TempStats.new 0).max ∧ 1 ≤ (TempStats.new 0).count :=
  claim_C6_invariant (TempStats.new 0) (Reachable.new 0)

/-- C7: mean is the division of sum by count, and every reachable
accumulator has a nonzero count, so the division-by-zero case cannot
occur. -/
theorem claim_C7_mean_no_div_zero (s : TempStats) (h : Reachable s) :
    s.mean = s.sum / (s.count : Rat) ∧ s.count ≠ 0 := by
  refine ⟨rfl, ?_⟩
  have := (reachable_bounds h).2
  omega

theorem claim_C7_witness :
    (TempStats.new 1).mean = (TempStats.new 1).sum / ((TempStats.new 1).count : Rat) ∧
      (TempStats.new 1).count ≠ 0 :=
  claim_C7_mean_no_div_zero (TempStats.new 1) (Reachable.new 1)

/-- C8: a line with no semicolon byte, with a value segment the UTF-8
decoder rejects, or with value text the float parser rejects contributes
zero entries: the partial mapping is exactly the one obtained with that
line absent. -/
theorem claim_C8_malformed_line_skipped (u : List Nat → Option String)
    (p : String → Option Rat) (pre post : List (List Nat)) (bad : List Nat)
    (h : bad.findIdx? (fun b => b == 59) = none
      ∨ (∃ pos, bad.findIdx? (fun b => b == 59) = some pos ∧
          u ((bad.drop pos).drop 1) = none)
      ∨ (∃ pos s, bad.findIdx? (fun b => b == 59) = some pos ∧
          u ((bad.drop pos).drop 1) = some s ∧ p s = none)) :
    process_lines u p (pre ++ bad :: post) = process_lines u p (pre ++ post) := by
  have hparse : lineParse u p bad = none := by
    rcases h with h | ⟨pos, h₁, h₂⟩ | ⟨pos, s, h₁, h₂, h₃⟩
    · simp only [lineParse, h]
    · simp only [lineParse, h₁, h₂]
    · simp only [lineParse, h₁, h₂, h₃]
  have hstep : ∀ m, lineStep u p m bad = m := by
    intro m
    simp only [lineStep, hparse]
  show (pre ++ bad :: post).foldl (lineStep u p) [] = (pre ++ post).foldl (lineStep u p) []
  rw [List.foldl_append, List.foldl_append, List.foldl_cons, hstep]

theorem claim_C8_witness :
    process_lines (fun _ => none) (fun _ => none) ([] ++ [97] :: []) =
      process_lines (fun _ => none) (fun _ => none) ([] ++ []) :=
  claim_C8_malformed_line_skipped (fun _ => none) (fun _ => none) [] [] [97]
    (Or.inl (by decide))

/-- C10: the mapping key is taken verbatim as all bytes strictly before the
first semicolon of the line; a single processed line yields an entry under
exactly that key, and a line whose first byte is the semicolon uses the
empty byte sequence as key. -/
theorem claim_C10_key_verbatim (u : List Nat → Option String)
    (p : String → Option Rat) (line : List Nat) (pos : Nat) (s : String) (t : Rat)
    (h₁ : line.findIdx? (fun b => b == 59) = some pos)
    (h₂ : u ((line.drop pos).drop 1) = some s)
    (h₃ : p s = some t) :
    lineParse u p line = some (line.take pos, t) ∧
    CityMap.find (process_lines u p [line]) (line.take pos) = some (TempStats.new t) ∧
    (∀ rest, line = 59 :: rest → line.take pos = []) := by
  have hparse : lineParse u p line = some (line.take pos, t) := by
    simp only [lineParse, h₁, h₂, h₃]
  refine ⟨hparse, ?_, ?_⟩
  · show CityMap.find (lineStep u p [] line) (line.take pos) = some (TempStats.new t)
    simp only [lineStep, hparse]
    simp [CityMap.upsert, CityMap.find]
  · intro rest hline
    subst hline
    have hzero : (59 :: rest).findIdx? (fun b => b == 59) = some 0 := by
      rw [List.findIdx?_cons]
      simp
    rw [hzero] at h₁
    have : pos = 0 := by
      injection h₁ with h
      omega
    rw [this]
    exact List.take_zero _

theorem claim_C10_witness :
    lineParse (fun _ => some ("")) (fun _ => some 1) [59, 49] =
      some (List.take 0 [59, 49], 1) ∧
    CityMap.find (process_lines (fun _ => some ("")) (fun _ => some 1) [[59, 49]])
      (List.take 0 [59, 49]) = some (TempStats.new 1) ∧
    (∀ rest, ([59, 49] : List Nat) = 59 :: rest → List.take 0 [59, 49] = []) :=
  claim_C10_key_verbatim (fun _ => some ("")) (fun _ => some 1) [59, 49] 0 ("") 1
    (by decide) rfl rfl

/-- The merged pairs of one round of the while loop in merge_maps: chunks
of two, each pair combined by one worker thread. -/
def mergePairs : List CityMap → List CityMap
  | a :: b :: rest => mergeInto a b :: mergePairs rest
  | _ => []

/-- The unpaired maps of one round: with an odd count the final chunk has a
single element, pushed into the next round directly (before the merged
results are collected from the worker handles). -/
def leftover : List CityMap → List CityMap
  | [a] => [a]
  | _ :: _ :: rest => leftover rest
  | [] => []

/-- One round of the while loop: the next working collection, in the order
the source builds it (unpaired map first, then the joined pair results). -/
def mergeRound (maps : List CityMap) : List CityMap :=
  leftover maps ++ mergePairs maps

/-- The while loop of merge_maps, with explicit fuel; the loop runs while
more than one map remains. The fuel used below, the length of the initial
collection, is proved sufficient. -/
def mergeLoop : Nat → List CityMap → List CityMap
  | 0, maps => maps
  | fuel + 1, maps => if 1 < maps.length then mergeLoop fuel (mergeRound maps) else maps

/-- merge_maps of calculate.rs: repeatedly merge pairs until at most one
map remains, then pop it, defaulting to the empty mapping. -/
def merge_maps (maps : List CityMap) : CityMap :=
  (mergeLoop maps.length maps).headD []

theorem mergePairs_length : ∀ l : List CityMap, (mergePairs l).length = l.length / 2
  | [] => rfl
  | [_] => by simp [mergePairs]
  | a :: b :: rest => by
    have ih := mergePairs_length rest
    simp only [mergePairs, List.length_cons, ih]
    omega

theorem leftover_length : ∀ l : List CityMap, (leftover l).length = l.length % 2
  | [] => rfl
  | [_] => by simp [leftover]
  | a :: b :: rest => by
    have ih := leftover_length rest
    simp only [leftover, List.length_cons, ih]
    omega

theorem mergeRound_length (l : List CityMap) :
    (mergeRound l).length = l.length % 2 + l.length / 2 := by
  simp [mergeRound, leftover_length, mergePairs_length]

theorem mergeLoop_short : ∀ (fuel : Nat) (maps : List CityMap),
    maps.length ≤ fuel → (mergeLoop fuel maps).length ≤ 1 := by
  intro fuel
  induction fuel with
  | zero =>
    intro maps h
    show maps.length ≤ 1
    omega
  | succ n ih =>
    intro maps h
    simp only [mergeLoop]
    by_cases hlen : 1 < maps.length
    · rw [if_pos hlen]
      refine ih _ ?_
      rw [mergeRound_length]
      omega
    · rw [if_neg hlen]
      omega

/-- The per-key fold of a collection of partial mappings: the lookup the
whole reduction must realise. -/
def bigFind (ms : List CityMap) (k : List Nat) : Option TempStats :=
  ms.foldr (fun m acc => optMerge (CityMap.find m k) acc) none

theorem bigFind_perm {ms ms₂ : List CityMap} (h : ms.Perm ms₂) (k : List Nat) :
    bigFind ms k = bigFind ms₂ k := by
  induction h with
  | nil => rfl
  | cons x _ ih => simp only [bigFind, List.foldr_cons] at ih ⊢; rw [ih]
  | swap x y l =>
    simp only [bigFind, List.foldr_cons]
    rw [← optMerge_assoc, ← optMerge_assoc, optMerge_comm (CityMap.find y k)]
  | trans _ _ ih₁ ih₂ => exact ih₁.trans ih₂

theorem mergeRound_ok : ∀ ms : List CityMap, (∀ m ∈ ms, Sorted m) →
    (∀ m ∈ mergeRound ms, Sorted m) ∧ ∀ k, bigFind (mergeRound ms) k = bigFind ms k
  | [] => by
    intro _
    exact ⟨by intro m hm; simp [mergeRound, leftover, mergePairs] at hm, fun k => rfl⟩
  | [a] => by
    intro h
    constructor
    · intro m hm
      simp only [mergeRound, leftover, mergePairs, List.append_nil, List.mem_singleton] at hm
      subst hm
      exact h _ (List.mem_singleton.mpr rfl)
    · intro k
      rfl
  | a :: b :: rest => by
    intro h
    have ha : Sorted a := h a (by simp)
    have hb : Sorted b := h b (by simp)
    have hrest : ∀ m ∈ rest, Sorted m := fun m hm => h m (by simp [hm])
    obtain ⟨ihs, ihf⟩ := mergeRound_ok rest hrest
    have hshape : mergeRound (a :: b :: rest) =
        leftover rest ++ mergeInto a b :: mergePairs rest := rfl
    constructor
    · intro m hm
      rw [hshape] at hm
      rcases List.mem_append.mp hm with hm | hm
      · exact ihs m (List.mem_append.mpr (Or.inl hm))
      · rcases List.mem_cons.mp hm with hm | hm
        · subst hm
          exact mergeInto_sorted b a ha
        · exact ihs m (List.mem_append.mpr (Or.inr hm))
    · intro k
      rw [hshape]
      have hperm : (leftover rest ++ mergeInto a b :: mergePairs rest).Perm
          (mergeInto a b :: (leftover rest ++ mergePairs rest)) :=
        List.perm_middle
      rw [bigFind_perm hperm k]
      have hcons : bigFind (mergeInto a b :: (leftover rest ++ mergePairs rest)) k =
          optMerge (CityMap.find (mergeInto a b) k)
            (bigFind (leftover rest ++ mergePairs rest) k) := rfl
      rw [hcons]
      have hmr : bigFind (leftover rest ++ mergePairs rest) k = bigFind rest k := ihf k
      rw [hmr, find_mergeInto b a ha hb k]
      have htarget : bigFind (a :: b :: rest) k =
          optMerge (CityMap.find a k) (optMerge (CityMap.find b k) (bigFind rest k)) := rfl
      rw [htarget, optMerge_assoc]

theorem mergeLoop_ok : ∀ (fuel : Nat) (ms : List CityMap), (∀ m ∈ ms, Sorted m) →
    (∀ m ∈ mergeLoop fuel ms, Sorted m) ∧ ∀ k, bigFind (mergeLoop fuel ms) k = bigFind ms k := by
  intro fuel
  induction fuel with
  | zero =>
    intro ms h
    exact ⟨h, fun k => rfl⟩
  | succ n ih =>
    intro ms h
    simp only [mergeLoop]
    by_cases hlen : 1 < ms.length
    · rw [if_pos hlen]
      obtain ⟨hrs, hrf⟩ := mergeRound_ok ms h
      obtain ⟨hls, hlf⟩ := ih (mergeRound ms) hrs
      exact ⟨hls, fun k => (hlf k).trans (hrf k)⟩
    · rw [if_neg hlen]
      exact ⟨h, fun k => rfl⟩

theorem merge_maps_sorted {ms : List CityMap} (h : ∀ m ∈ ms, Sorted m) :
    Sorted (merge_maps ms) := by
  unfold merge_maps
  have hs := (mergeLoop_ok ms.length ms h).1
  cases hres : mergeLoop ms.length ms with
  | nil => exact List.Pairwise.nil
  | cons x rest =>
    show Sorted x
    exact hs x (hres ▸ List.mem_cons_self x rest)

theorem find_merge_maps {ms : List CityMap} (h : ∀ m ∈ ms, Sorted m) (k : List Nat) :
    CityMap.find (merge_maps ms) k = bigFind ms k := by
  unfold merge_maps
  have hlen := mergeLoop_short ms.length ms (le_refl _)
  have hbf := (mergeLoop_ok ms.length ms h).2 k
  cases hres : mergeLoop ms.length ms with
  | nil =>
    rw [hres] at hbf
    rw [← hbf]
    rfl
  | cons x rest =>
    rw [hres] at hbf hlen
    cases rest with
    | nil =>
      rw [← hbf]
      show CityMap.find x k = optMerge (CityMap.find x k) none
      rw [optMerge_none_right]
    | cons y t =>
      simp at hlen

theorem bigFind_map_process (u : List Nat → Option String) (p : String → Option Rat) :
    ∀ (batches : List (List (List Nat))) (k : List Nat),
      bigFind (batches.map (process_lines u p)) k =
        CityMap.find (process_lines u p batches.flatten) k := by
  intro batches
  induction batches with
  | nil => intro k; rfl
  | cons b rest ih =>
    intro k
    show optMerge (CityMap.find (process_lines u p b) k)
        (bigFind (rest.map (process_lines u p)) k) =
      CityMap.find (process_lines u p (b ++ rest.flatten)) k
    rw [ih k, find_process_append]

/-- C1: for any splitting of the input lines into batches, aggregating each
batch with process_lines and reducing the partial mappings with merge_maps,
in whatever order the partial mappings arrive, yields exactly the mapping
of one sequential aggregation of all the lines. -/
theorem claim_C1_batch_invariance (u : List Nat → Option String)
    (p : String → Option Rat) (batches : List (List (List Nat)))
    (ms : List CityMap) (h : ms.Perm (batches.map (process_lines u p))) :
    merge_maps ms = process_lines u p batches.flatten := by
  have hsorted : ∀ m ∈ ms, Sorted m := by
    intro m hm
    have hmem : m ∈ batches.map (process_lines u p) := h.mem_iff.mp hm
    obtain ⟨b, _, hb⟩ := List.mem_map.mp hmem
    rw [← hb]
    exact process_lines_sorted u p b
  refine find_ext _ _ (merge_maps_sorted hsorted)
    (process_lines_sorted u p batches.flatten) (fun k => ?_)
  rw [find_merge_maps hsorted k, bigFind_perm h k, bigFind_map_process u p batches k]

/-- A trivial stand-in for the external UTF-8 decoder, for concrete runs. -/
def decodeAll : List Nat → Option String := fun _ => some ("")

/-- A trivial stand-in for the external float parser, for concrete runs. -/
def parseOne : String → Option Rat := fun _ => some 1

theorem claim_C1_witness :
    merge_maps [[([98], TempStats.new 1)], [([97], TempStats.new 1)]] =
      process_lines decodeAll parseOne ([[[97, 59]], [[98, 59]]] : List (List (List Nat))).flatten :=
  claim_C1_batch_invariance decodeAll parseOne [[[97, 59]], [[98, 59]]]
    [[([98], TempStats.new 1)], [([97], TempStats.new 1)]] (by decide)

/-- An opaque I/O error value: the pipeline never inspects the error beyond
passing it along. -/
structure IOError where
  code : Nat
deriving DecidableEq, Repr

/-- The fixed batch size declared in main. -/
def batch_size : Nat := 100000

/-- The fixed thread count declared in main (never consulted afterwards:
one thread is spawned per batch). -/
def num_threads : Nat := 8

/-- The batch-forming loop of main: each successfully read line is pushed
into the buffer, a failed line read is skipped by the if-let, and when the
buffer reaches the batch size it is detached and submitted; after the
stream is exhausted a nonempty remainder is submitted as a final batch.
Returns the batches in submission order. -/
def readBatches (bs : Nat) : List (Except IOError (List Nat)) → List (List Nat) →
    List (List (List Nat))
  | [], buffer => if buffer.isEmpty then [] else [buffer]
  | Except.error _ :: rest, buffer => readBatches bs rest buffer
  | Except.ok line :: rest, buffer =>
    if bs ≤ (buffer ++ [line]).length then (buffer ++ [line]) :: readBatches bs rest []
    else readBatches bs rest (buffer ++ [line])

/-- The value bound to final_map in main: the partial mappings collected
from the result channel, reduced by merge_maps. The model collects them in
batch submission order; claim C1 states every other arrival order gives
the same mapping. -/
def mainFinalMap (u : List Nat → Option String) (p : String → Option Rat)
    (bs : Nat) (stream : List (Except IOError (List Nat))) : CityMap :=
  merge_maps ((readBatches bs stream []).map (process_lines u p))

/-- main of calculate.rs as a function of the result of opening the input
file and of the sequence of line-read results: an open failure propagates
through the question-mark operator; otherwise the pipeline runs to the end,
the final mapping is computed and dropped, and main returns ok unit. -/
def mainFn (u : List Nat → Option String) (p : String → Option Rat) (bs : Nat)
    (openResult : Except IOError Unit)
    (stream : List (Except IOError (List Nat))) : Except IOError Unit :=
  match openResult with
  | Except.error e => Except.error e
  | Except.ok _ =>
    let _final := mainFinalMap u p bs stream
    Except.ok ()

/-- C9: merge_maps of an empty collection returns the empty mapping, and a
stream with zero lines yields an empty final mapping with no error. -/
theorem claim_C9_empty_input (u : List Nat → Option String)
    (p : String → Option Rat) (bs : Nat) :
    merge_maps [] = ([] : CityMap) ∧
    mainFinalMap u p bs [] = [] ∧
    mainFn u p bs (Except.ok ()) [] = Except.ok () :=
  ⟨rfl, rfl, rfl⟩

/-- C3 as stated fails on the code: with a failed line read in the stream,
main still returns ok and the pipeline still produces a final mapping from
the lines that did read, here a nonempty one. -/
theorem claim_C3_counterexample :
    mainFn decodeAll parseOne 1 (Except.ok ())
        [Except.error ⟨0⟩, Except.ok [97, 59, 49]] = Except.ok () ∧
    mainFinalMap decodeAll parseOne 1 [Except.error ⟨0⟩, Except.ok [97, 59, 49]] =
      [([97], TempStats.new 1)] :=
  ⟨rfl, rfl⟩

theorem readBatches_skip_error (bs : Nat) (e : IOError) :
    ∀ (pre post : List (Except IOError (List Nat))) (buffer : List (List Nat)),
      readBatches bs (pre ++ Except.error e :: post) buffer =
        readBatches bs (pre ++ post) buffer := by
  intro pre
  induction pre with
  | nil => intro post buffer; rfl
  | cons r rest ih =>
    intro post buffer
    cases r with
    | error e₂ =>
      simp only [List.cons_append, readBatches]
      exact ih post buffer
    | ok line =>
      simp only [List.cons_append, readBatches]
      by_cases hb : bs ≤ (buffer ++ [line]).length
      · rw [if_pos hb, if_pos hb]
        exact congrArg (fun x => (buffer ++ [line]) :: x) (ih post [])
      · rw [if_neg hb, if_neg hb]
        exact ih post (buffer ++ [line])

/-- C3 amended: only a failure of the initial file open propagates and
aborts the pipeline; a failed read of an individual line is skipped
silently, the pipeline continues, produces the final mapping of the
successfully read lines, and main returns ok. -/
theorem claim_C3_amended_open_error_only (u : List Nat → Option String)
    (p : String → Option Rat) (bs : Nat) (e : IOError)
    (pre post : List (Except IOError (List Nat))) :
    mainFn u p bs (Except.error e) (pre ++ Except.error e :: post) = Except.error e ∧
    mainFinalMap u p bs (pre ++ Except.error e :: post) = mainFinalMap u p bs (pre ++ post) ∧
    mainFn u p bs (Except.ok ()) (pre ++ Except.error e :: post) = Except.ok () := by
  refine ⟨rfl, ?_, rfl⟩
  unfold mainFinalMap
  rw [readBatches_skip_error bs e pre post]

/-- C4 as stated fails on the code: even when the merge reducer produces a
nonempty final mapping, main returns ok unit and hands no mapping back. -/
theorem claim_C4_counterexample :
    mainFn decodeAll parseOne 1 (Except.ok ()) [Except.ok [97, 59, 49]] = Except.ok () ∧
    mainFinalMap decodeAll parseOne 1 [Except.ok [97, 59, 49]] =
      [([97], TempStats.new 1)] :=
  ⟨rfl, rfl⟩

/-- C4 amended: after all batches are submitted, main feeds the collected
partial mappings to merge_maps and binds the resulting final mapping, but
discards it: the value returned to the caller is ok unit, never the
mapping. -/
theorem claim_C4_amended_map_discarded (u : List Nat → Option String)
    (p : String → Option Rat) (bs : Nat)
    (stream : List (Except IOError (List Nat))) :
    mainFinalMap u p bs stream =
      merge_maps ((readBatches bs stream []).map (process_lines u p)) ∧
    mainFn u p bs (Except.ok ()) stream = Except.ok () :=
  ⟨rfl, rfl⟩
